import Mathlib

/-!
Verification of the agatedb core (WAL, levels controller, block iterator)
against its natural-language specification.  Rust code is shallowly
embedded: byte buffers are `List Nat` (each element a byte value),
machine integers are `Nat` with explicit `% 2^w` where the source casts,
fallible operations return `Except`/`Option`.
-/

namespace Agate

/-- Errors produced along the WAL read path, mirroring the variants of
`crate::Error` that `wal.rs` distinguishes: `Decode` (prost varint
failure), `VarDecode` (custom header-too-short), `Io` with
`UnexpectedEof`, and any other `Io` error. -/
inductive WErr where
  | varDecode : WErr
  | decodeErr : WErr
  | ioEof : WErr
  | ioOther : WErr
deriving DecidableEq, Repr

/-- Modelled from the spec (§4.1): the varint encoders in
`util::binary` are not under `src/`; they produce the protobuf
(LEB128) wire form.  Fuel 10 covers every `u64`. -/
def encode_varint_aux : Nat → Nat → List Nat
  | 0, v => [v % 128]
  | fuel + 1, v => if v < 128 then [v] else (v % 128 + 128) :: encode_varint_aux fuel (v / 128)

/-- Modelled from the spec (§4.1): LEB128 encoding of an unsigned value. -/
def encode_varint (v : Nat) : List Nat := encode_varint_aux 10 v

/-- Modelled from the spec (§4.1): `prost::encoding::decode_varint` reads
at most 10 bytes and fails with a `Decode` error on exhaustion. -/
def decode_varint_aux : Nat → List Nat → Except WErr (Nat × List Nat)
  | _, [] => .error .decodeErr
  | 0, _ :: _ => .error .decodeErr
  | fuel + 1, b :: bs =>
    if b < 128 then .ok (b, bs)
    else
      match decode_varint_aux fuel bs with
      | .ok (v, rest) => .ok (b % 128 + 128 * v, rest)
      | .error e => .error e

/-- Modelled from the spec (§4.1): varint decoder consuming from a byte cursor. -/
def decode_varint (bs : List Nat) : Except WErr (Nat × List Nat) := decode_varint_aux 10 bs

/-- `Entry` (`entry.rs` is not under `src/`; fields per spec §3 data model
and their use in `wal.rs`). -/
structure Entry where
  meta : Nat
  user_meta : Nat
  expires_at : Nat
  key : List Nat
  value : List Nat
  version : Nat
deriving DecidableEq, Repr

/-- `Header` of a WAL entry (`wal.rs`). -/
structure WalHeader where
  key_len : Nat
  value_len : Nat
  expires_at : Nat
  meta : Nat
  user_meta : Nat
deriving DecidableEq, Repr

/-- `MAX_HEADER_SIZE` (`wal.rs`). -/
def MAX_HEADER_SIZE : Nat := 21

/-- `Header::encode` (`wal.rs`): meta, user_meta, then varints of
key_len, value_len, expires_at. -/
def headerEncode (h : WalHeader) : List Nat :=
  h.meta :: h.user_meta ::
    (encode_varint h.key_len ++ encode_varint h.value_len ++ encode_varint h.expires_at)

/-- `Header::decode` (`wal.rs` lines 71-81): rejects a cursor with
`remaining() <= 2` with `VarDecode`, then reads two raw bytes and three
varints; the `as u32`/`as u64` casts are the explicit `%`. -/
def headerDecode (bs : List Nat) : Except WErr (WalHeader × List Nat) :=
  match bs with
  | m :: u :: rest =>
    if rest.length = 0 then .error .varDecode
    else
      match decode_varint rest with
      | .error e => .error e
      | .ok (kl, r1) =>
        match decode_varint r1 with
        | .error e => .error e
        | .ok (vl, r2) =>
          match decode_varint r2 with
          | .error e => .error e
          | .ok (ea, r3) =>
            .ok ({ key_len := kl % 2 ^ 32, value_len := vl % 2 ^ 32,
                   expires_at := ea % 2 ^ 64, meta := m, user_meta := u }, r3)
  | _ => .error .varDecode

/-- The header `Wal::encode_entry` builds from an entry (`wal.rs` 173-193),
with the `as u32` length casts made explicit. -/
def headerOf (e : Entry) : WalHeader :=
  { key_len := e.key.length % 2 ^ 32, value_len := e.value.length % 2 ^ 32,
    expires_at := e.expires_at, meta := e.meta, user_meta := e.user_meta }

/-- `Wal::encode_entry` (`wal.rs` 173-193): header, then key, then value. -/
def encode_entry (e : Entry) : List Nat :=
  headerEncode (headerOf e) ++ e.key ++ e.value

/-- `Wal::decode_entry` (`wal.rs` 196-210).  The source slices the
remaining buffer without bounds checks (a panic on overrun); the model
returns `none` there, and on decode errors. -/
def decode_entry (bs : List Nat) : Option Entry :=
  match headerDecode bs with
  | .error _ => none
  | .ok (h, kv) =>
    if h.key_len + h.value_len ≤ kv.length then
      some { meta := h.meta, user_meta := h.user_meta, expires_at := h.expires_at,
             key := kv.take h.key_len,
             value := (kv.drop h.key_len).take h.value_len, version := 0 }
    else none

/-- Modelled from the spec: `EntryReader` (`value.rs` is not under `src/`)
reads one framed entry from the byte cursor; short key/value reads give
an I/O unexpected-EOF. -/
def read_exact (n : Nat) (bs : List Nat) : Except WErr (List Nat × List Nat) :=
  if n ≤ bs.length then .ok (bs.take n, bs.drop n) else .error .ioEof

/-- Modelled from the spec: `EntryReader::entry` decodes
`header ‖ key ‖ value` from the cursor (§4.8 framing). -/
def readEntry (bs : List Nat) : Except WErr (Entry × List Nat) :=
  match headerDecode bs with
  | .error e => .error e
  | .ok (h, r0) =>
    match read_exact h.key_len r0 with
    | .error e => .error e
    | .ok (k, r1) =>
      match read_exact h.value_len r1 with
      | .error e => .error e
      | .ok (v, r2) =>
        .ok ({ meta := h.meta, user_meta := h.user_meta, expires_at := h.expires_at,
               key := k, value := v, version := 0 }, r2)

/-- Modelled from the spec (§4.8): an entry with empty key and value and
zero meta/user_meta is the zero sentinel (`EntryRef::is_zero`). -/
def IsZeroEntry (e : Entry) : Prop :=
  e.key = [] ∧ e.value = [] ∧ e.meta = 0 ∧ e.user_meta = 0

instance (e : Entry) : Decidable (IsZeroEntry e) := by
  unfold IsZeroEntry; infer_instance

/-- `WalIterator::next` (`wal.rs` 304-331): a zero entry, a prost decode
error, the custom `VarDecode` error and an unexpected-EOF all end
iteration (`none`); other I/O errors surface as `some (.error _)`. -/
def walNext (bs : List Nat) : Option (Except WErr (Entry × List Nat)) :=
  match readEntry bs with
  | .ok (e, rest) => if IsZeroEntry e then none else some (.ok (e, rest))
  | .error .decodeErr => none
  | .error .varDecode => none
  | .error .ioEof => none
  | .error .ioOther => some (.error .ioOther)

/-- Repeated `WalIterator::next` until `None` or an error, collecting the
yielded entries; `fuel` bounds the recursion and exceeds the buffer
length whenever the theorems use it. -/
def walRunAux : Nat → List Nat → List Entry × Option WErr
  | 0, _ => ([], none)
  | fuel + 1, bs =>
    match walNext bs with
    | none => ([], none)
    | some (.error e) => ([], some e)
    | some (.ok (e, rest)) =>
      let p := walRunAux fuel rest
      (e :: p.1, p.2)

/-- Full iteration over a byte buffer. -/
def walRun (bs : List Nat) : List Entry × Option WErr := walRunAux (bs.length + 1) bs

/-- WAL state (`wal.rs`): the mmap bytes, the append cursor, the logical
`size`, and the underlying file length (for `truncate`). -/
structure Wal where
  mmap : List Nat
  write_at : Nat
  size : Nat
  file_len : Nat
deriving DecidableEq, Repr

/-- Overwrite `buf.length` bytes of `xs` starting at `off`. -/
def setRange (xs : List Nat) (off : Nat) (buf : List Nat) : List Nat :=
  xs.take off ++ buf ++ xs.drop (off + buf.length)

/-- The mmap slice assignment in `Wal::write_entry` (`wal.rs` 151-152);
`none` models the out-of-range panic. -/
def write_slice (w : Wal) (buf : List Nat) : Option Wal :=
  if w.write_at + buf.length ≤ w.mmap.length then
    some { w with mmap := setRange w.mmap w.write_at buf }
  else none

/-- `Wal::zero_next_entry` (`wal.rs` 163-170): zero
`MAX_HEADER_SIZE` bytes at `write_at`; `none` models the slice panic. -/
def zero_next_entry (w : Wal) : Option Wal :=
  if w.write_at + MAX_HEADER_SIZE ≤ w.mmap.length then
    some { w with mmap := setRange w.mmap w.write_at (List.replicate MAX_HEADER_SIZE 0) }
  else none

/-- `Wal::write_entry` (`wal.rs` 148-156): encode, copy into the mmap at
`write_at`, advance `write_at`, re-establish the sentinel. -/
def write_entry (w : Wal) (e : Entry) : Option Wal :=
  match write_slice w (encode_entry e) with
  | none => none
  | some w1 =>
    zero_next_entry { w1 with write_at := w1.write_at + (encode_entry e).length }

/-- Sequential `write_entry` calls. -/
def write_entries (w : Wal) (es : List Entry) : Option Wal :=
  es.foldlM write_entry w

/-- A freshly created WAL (`Wal::open` on a new path): the file is
extended to `2 * value_log_file_size` (zero-filled), `size` is the mmap
length, `write_at` is 0; `bootstrap`'s zeroing is the identity on the
zero-filled mmap. -/
def freshWal (n : Nat) : Wal :=
  { mmap := List.replicate n 0, write_at := 0, size := n, file_len := n }

/-- `Wal::iter` (`wal.rs` 254-258) iterates over `mmap[0..size]`. -/
def walEntries (w : Wal) : List Entry × Option WErr :=
  walRun (w.mmap.take w.size)

/-- `ValuePointer` fields used by `Wal::read` (glossary: offset and
length into the value log). -/
structure ValuePointer where
  offset : Nat
  len : Nat
deriving DecidableEq, Repr

/-- `Wal::read` (`wal.rs` 213-229): the three-way bounds check against
the mmap length and the `size` field; the error is `LogRead`. -/
def walRead (w : Wal) (p : ValuePointer) : Except Unit (List Nat) :=
  if w.mmap.length ≤ p.offset ∨ w.mmap.length < p.offset + p.len ∨
      (w.size : Nat) < p.offset + p.len then
    .error ()
  else
    .ok ((w.mmap.drop p.offset).take p.len)

/-- `Wal::truncate` (`wal.rs` 232-242): an early `Ok` when the file
length already equals `end`; otherwise `size` becomes `end as u32` and
the file is truncated (the fsync has no observable effect here). -/
def walTruncate (w : Wal) (e : Nat) : Wal :=
  if w.file_len = e then w
  else { w with size := e % 2 ^ 32, file_len := e }

/-! ## Levels controller (`levels.rs`) -/

/-- `Value` (spec §3 data model; `value.rs` is not under `src/`): the
fields `levels.rs` inspects. -/
structure Value where
  meta : Nat
  user_meta : Nat
  expires_at : Nat
  version : Nat
  value : List Nat
deriving DecidableEq, Repr

/-- Modelled from the spec (§4.2): `get_ts` (`format.rs` is not under
`src/`) returns the trailing 8-byte big-endian version, or 0 for a key
shorter than 8 bytes. -/
def get_ts (key : List Nat) : Nat :=
  if key.length < 8 then 0
  else (key.drop (key.length - 8)).foldl (fun a b => a * 256 + b) 0

/-- `Table` handle: only `size()` is relevant to `levels.rs`
(`table/mod.rs` is not under `src/`; spec §3 says tables report a byte
size). -/
structure Table where
  size : Nat
deriving DecidableEq, Repr

/-- `LevelHandler` state (`levels.rs` 24-29) plus the
`num_level_zero_tables_stall` option it consults. -/
structure LevelHandler where
  level : Nat
  num_level_zero_tables_stall : Nat
  tables : List Table
  total_size : Nat
deriving DecidableEq, Repr

/-- `LevelHandler::try_add_l0_table` (`levels.rs` 41-51): refuse when
the level already holds `num_level_zero_tables_stall` tables, otherwise
append the table and accumulate its size. -/
def try_add_l0_table (h : LevelHandler) (t : Table) : Bool × LevelHandler :=
  if h.num_level_zero_tables_stall ≤ h.tables.length then (false, h)
  else (true, { h with total_size := h.total_size + t.size, tables := h.tables ++ [t] })

/-- `LevelsController::get` (`levels.rs` 140-171), with each level
handler's answer for the key abstracted as an `Except`: walk the levels
with their indices, skip indices below `start_level`, skip tombstones
and version mismatches, propagate handler errors. -/
def lcGetAux (ver : Nat) (maxValue : Value) :
    List (Except Unit (Option Value)) → Nat → Nat → Except Unit Value
  | [], _, _ => .ok maxValue
  | r :: rs, i, start =>
    if i < start then lcGetAux ver maxValue rs (i + 1) start
    else
      match r with
      | .ok (some v) =>
        if v.value = [] ∧ v.meta = 0 then lcGetAux ver maxValue rs (i + 1) start
        else if v.version = ver then .ok v
        else lcGetAux ver maxValue rs (i + 1) start
      | .ok none => lcGetAux ver maxValue rs (i + 1) start
      | .error e => .error e

/-- `LevelsController::get`: the version is `get_ts(key)` and the walk
starts at level index 0. -/
def lcGet (key : List Nat) (maxValue : Value) (startLevel : Nat)
    (results : List (Except Unit (Option Value))) : Except Unit Value :=
  lcGetAux (get_ts key) maxValue results 0 startLevel

/-- The claim's description of one level's outcome: a present,
non-tombstone value whose version is the requested timestamp is a hit;
anything else means "continue". -/
def levelPick (ver : Nat) (o : Option Value) : Option Value :=
  match o with
  | some v =>
    if v.value = [] ∧ v.meta = 0 then none
    else if v.version = ver then some v
    else none
  | none => none

/-- The claim's description of the whole lookup: first hit over the
levels at index ≥ `start_level`, in increasing index order, defaulting
to `max_value`. -/
def lcGetSpec (key : List Nat) (maxValue : Value) (startLevel : Nat)
    (opts : List (Option Value)) : Value :=
  ((opts.drop startLevel).findSome? (levelPick (get_ts key))).getD maxValue

/-! ## Block iterator (`table/iterator.rs`) -/

/-- `HEADER_SIZE` of a block-entry header (`table/builder.rs` is not
under `src/`; spec §6 fixes `overlap(u16 LE) ‖ diff(u16 LE)`). -/
def HEADER_SIZE : Nat := 4

/-- Block-entry header `{overlap, diff}`. -/
structure BHeader where
  overlap : Nat
  diff : Nat
deriving DecidableEq, Repr

/-- Modelled from the spec (§6): little-endian `u16`. -/
def u16le (v : Nat) : List Nat := [v % 256, v / 256 % 256]

/-- Modelled from the spec (§6): decode the `(overlap, diff)` header
from the first `HEADER_SIZE` bytes. -/
def bheaderDecode (bs : List Nat) : BHeader :=
  { overlap := bs.getD 0 0 + 256 * bs.getD 1 0,
    diff := bs.getD 2 0 + 256 * bs.getD 3 0 }

/-- `Block` (spec §3): entry data plus the ordered entry offsets;
`entries_index_start` marks the end of the data region. -/
structure Block where
  data : List Nat
  entry_offsets : List Nat
  entries_index_start : Nat
deriving DecidableEq, Repr

/-- Iterator errors (`table/iterator.rs` 10-17), stringified causes
collapsed. -/
inductive IterErr where
  | eof : IterErr
  | error : IterErr
deriving DecidableEq, Repr

/-- `BlockIterator` state (`table/iterator.rs` 38-57). -/
structure BIter where
  idx : Nat
  base_key : List Nat
  key : List Nat
  val : List Nat
  data : List Nat
  offsets : List Nat
  perv_overlap : Nat
  err : Option IterErr
deriving DecidableEq, Repr

/-- `BlockIterator::new` (`table/iterator.rs` 60-72): the data is the
block's bytes up to `entries_index_start`. -/
def newIter (b : Block) : BIter :=
  { idx := 0, base_key := [], key := [], val := [],
    data := b.data.take b.entries_index_start,
    offsets := b.entry_offsets, perv_overlap := 0, err := none }

/-- `BlockIterator::set_idx` (`table/iterator.rs` 91-133): out-of-range
sets EOF; otherwise lazily extract the base key, slice the entry,
decode its header, and rebuild the current key from the shared-prefix
buffer, the base key and the diff bytes. -/
def set_idx (it : BIter) (i : Nat) : BIter :=
  if it.offsets.length ≤ i then { it with idx := i, err := some .eof }
  else
    let start_offset := it.offsets.getD i 0
    let base_key :=
      if it.base_key = [] then
        let bh := bheaderDecode it.data
        (it.data.drop HEADER_SIZE).take bh.diff
      else it.base_key
    let end_offset :=
      if i + 1 = it.offsets.length then it.data.length
      else it.offsets.getD (i + 1) 0
    let entry_data := (it.data.take end_offset).drop start_offset
    let h := bheaderDecode entry_data
    let body := entry_data.drop HEADER_SIZE
    let key1 :=
      if it.perv_overlap < h.overlap then
        it.key.take it.perv_overlap ++
          ((base_key.drop it.perv_overlap).take (h.overlap - it.perv_overlap))
      else it.key
    let diff_key := body.take h.diff
    { it with idx := i, err := none, base_key := base_key,
              perv_overlap := h.overlap,
              key := key1.take h.overlap ++ diff_key,
              val := body.drop h.diff }

/-- `BlockIterator::seek_to_first` (`table/iterator.rs` 169-171). -/
def seek_to_first (it : BIter) : BIter := set_idx it 0

/-- `BlockIterator::seek_to_last` (`table/iterator.rs` 173-181). -/
def seek_to_last (it : BIter) : BIter :=
  if it.offsets.length = 0 then { it with err := some .eof }
  else set_idx it (it.offsets.length - 1)

/-- `BlockIterator::next` (`table/iterator.rs` 183-185). -/
def iterNext (it : BIter) : BIter := set_idx it (it.idx + 1)

/-- `BlockIterator::prev` (`table/iterator.rs` 187-195): at index 0 the
iterator becomes EOF (the source parks `idx` at `usize::MAX`). -/
def iterPrev (it : BIter) : BIter :=
  if it.idx = 0 then { it with err := some .eof }
  else set_idx it (it.idx - 1)

/-- Collect `(key, val)` pairs while the iterator is valid, stepping
forward. -/
def collectFwd : Nat → BIter → List (List Nat × List Nat)
  | 0, _ => []
  | fuel + 1, it =>
    if it.err = none then (it.key, it.val) :: collectFwd fuel (iterNext it) else []

/-- Collect `(key, val)` pairs while the iterator is valid, stepping
backward. -/
def collectBwd : Nat → BIter → List (List Nat × List Nat)
  | 0, _ => []
  | fuel + 1, it =>
    if it.err = none then (it.key, it.val) :: collectBwd fuel (iterPrev it) else []

/-- `seek_to_first` followed by repeated `next` over a whole block. -/
def forwardList (b : Block) : List (List Nat × List Nat) :=
  collectFwd (b.entry_offsets.length + 1) (seek_to_first (newIter b))

/-- `seek_to_last` followed by repeated `prev` over a whole block. -/
def backwardList (b : Block) : List (List Nat × List Nat) :=
  collectBwd (b.entry_offsets.length + 1) (seek_to_last (newIter b))

/-- Length of the longest common prefix of two byte strings. -/
def commonPrefixLen : List Nat → List Nat → Nat
  | a :: as, b :: bs => if a = b then commonPrefixLen as bs + 1 else 0
  | _, _ => 0

/-- Modelled from the spec (§4.3, §6, glossary): the block builder's
per-entry bytes.  The first entry has `overlap = 0` and carries the
base key; every later entry stores `(overlap, diff)` **against the base
key** (glossary: "other entries are encoded as overlap+diff against
it"), which is what `set_idx`'s reconstruction from `base_key`
requires. -/
def blockEntries : List (List Nat × List Nat) → List (List Nat)
  | [] => []
  | (k0, v0) :: rest =>
    (u16le 0 ++ u16le k0.length ++ k0 ++ v0) ::
      rest.map (fun kv =>
        let ov := commonPrefixLen k0 kv.1
        u16le ov ++ u16le (kv.1.length - ov) ++ kv.1.drop ov ++ kv.2)

/-- Start offsets of a list of chunks laid out consecutively from
`acc`. -/
def offsetsAux : List (List Nat) → Nat → List Nat
  | [], _ => []
  | e :: es, acc => acc :: offsetsAux es (acc + e.length)

/-- Modelled from the spec (§6): assemble a block from key/value pairs:
concatenated entries, their start offsets, and `entries_index_start` at
the end of the data region. -/
def buildBlock (kvs : List (List Nat × List Nat)) : Block :=
  let es := blockEntries kvs
  { data := es.flatten, entry_offsets := offsetsAux es 0,
    entries_index_start := es.flatten.length }

/-- Modelled from the spec (§4.2): lexicographic byte comparison. -/
def compareBytes : List Nat → List Nat → Ordering
  | [], [] => .eq
  | [], _ :: _ => .lt
  | _ :: _, [] => .gt
  | a :: as, b :: bs =>
    if a < b then .lt else if b < a then .gt else compareBytes as bs

/-- Big-endian interpretation of a byte string. -/
def beU64 (bs : List Nat) : Nat := bs.foldl (fun a b => a * 256 + b) 0

/-- Modelled from the spec (§4.2): `COMPARATOR.compare_key` — compare
user-key prefixes lexicographically, break ties with the *larger*
trailing 8-byte big-endian version comparing less; short keys compare
by raw bytes. -/
def compare_key (a b : List Nat) : Ordering :=
  if 8 ≤ a.length ∧ 8 ≤ b.length then
    let c := compareBytes (a.take (a.length - 8)) (b.take (b.length - 8))
    if c = .eq then
      compare (beU64 (b.drop (b.length - 8))) (beU64 (a.drop (a.length - 8)))
    else c
  else compareBytes a b

/-- The `i`-th internal key of the sequence a block is built from. -/
def entryKey (kvs : List (List Nat × List Nat)) (i : Nat) : List Nat :=
  (kvs.getD i ([], [])).1

/-- The `i`-th value bytes of the sequence a block is built from. -/
def entryVal (kvs : List (List Nat × List Nat)) (i : Nat) : List Nat :=
  (kvs.getD i ([], [])).2

/-- The `overlap` stored for entry `i`: 0 for the first entry, the
common-prefix length with the base key otherwise. -/
def entryOv (kvs : List (List Nat × List Nat)) (i : Nat) : Nat :=
  if i = 0 then 0 else commonPrefixLen (entryKey kvs 0) (entryKey kvs i)

/-- The diff bytes stored for entry `i`. -/
def entryDiff (kvs : List (List Nat × List Nat)) (i : Nat) : List Nat :=
  (entryKey kvs i).drop (entryOv kvs i)

/-- The on-disk bytes of entry `i`. -/
def entryBytes (kvs : List (List Nat × List Nat)) (i : Nat) : List Nat :=
  u16le (entryOv kvs i) ++ u16le (entryDiff kvs i).length ++
    entryDiff kvs i ++ entryVal kvs i

/-- The state invariant `set_idx` maintains: the iterator's data and
offsets describe the built block, `base_key` is unset or the base key,
and the reusable `key` buffer agrees with the base key on its first
`perv_overlap` bytes. -/
def BIterInv (kvs : List (List Nat × List Nat)) (it : BIter) : Prop :=
  it.data = (blockEntries kvs).flatten ∧
  it.offsets = offsetsAux (blockEntries kvs) 0 ∧
  (it.base_key = [] ∨ it.base_key = (kvs.headD ([], [])).1) ∧
  it.perv_overlap ≤ (kvs.headD ([], [])).1.length ∧
  it.perv_overlap ≤ it.key.length ∧
  it.key.take it.perv_overlap = (kvs.headD ([], [])).1.take it.perv_overlap

/-! ## Derived WAL notions used by the round-trip statements -/

/-- Machine-integer well-formedness of an entry: byte-valued metas,
`u32` key/value lengths, `u64` expiry (the Rust field types). -/
def WfEntry (e : Entry) : Prop :=
  e.meta < 256 ∧ e.user_meta < 256 ∧ e.key.length < 2 ^ 32 ∧
    e.value.length < 2 ^ 32 ∧ e.expires_at < 2 ^ 64

instance (e : Entry) : Decidable (WfEntry e) := by
  unfold WfEntry; infer_instance

/-- The entry as the WAL framing persists it: every field except
`version`, which is not encoded and reads back as 0. -/
def canon (e : Entry) : Entry := { e with version := 0 }

/-- The bytes of a sequence of entries encoded back to back. -/
def concatEnc (es : List Entry) : List Nat := (es.map encode_entry).flatten

/-- Total encoded length of a sequence of entries. -/
def totalEncLen (es : List Entry) : Nat :=
  (es.map (fun e => (encode_entry e).length)).sum

/-! ## Helper lemmas -/

theorem decode_varint_aux_error {fuel : Nat} {bs : List Nat} {er : WErr}
    (h : decode_varint_aux fuel bs = .error er) : er = .decodeErr := by
  induction fuel generalizing bs with
  | zero => cases bs <;> simp_all [decode_varint_aux]
  | succ fuel ih =>
    cases bs with
    | nil => simp_all [decode_varint_aux]
    | cons b rest =>
      simp only [decode_varint_aux] at h
      split at h
      · simp_all
      · cases hrec : decode_varint_aux fuel rest with
        | ok p => rw [hrec] at h; simp_all
        | error e =>
          rw [hrec] at h
          simp only [Except.error.injEq] at h
          subst h
          exact ih hrec

theorem lcGetAux_map_ok (ver : Nat) (maxValue : Value) :
    ∀ (opts : List (Option Value)) (i start : Nat),
      lcGetAux ver maxValue (opts.map Except.ok) i start =
        .ok (((opts.drop (start - i)).findSome? (levelPick ver)).getD maxValue) := by
  intro opts
  induction opts with
  | nil => intro i start; simp [lcGetAux]
  | cons o os ih =>
    intro i start
    simp only [List.map_cons, lcGetAux]
    by_cases hi : i < start
    · rw [if_pos hi, ih]
      have hs : start - i = (start - (i + 1)) + 1 := by omega
      rw [hs, List.drop_succ_cons]
    · rw [if_neg hi]
      have hs : start - i = 0 := by omega
      have hs1 : start - (i + 1) = 0 := by omega
      rw [hs]
      cases o with
      | none =>
        dsimp only
        rw [ih, hs1]
        simp [levelPick]
      | some v =>
        dsimp only
        by_cases ht : v.value = [] ∧ v.meta = 0
        · rw [if_pos ht, ih, hs1]
          simp [levelPick, ht]
        · rw [if_neg ht]
          by_cases hv : v.version = ver
          · rw [if_pos hv]
            simp [levelPick, ht, hv]
          · rw [if_neg hv, ih, hs1]
            simp [levelPick, ht, hv]

theorem setRange_length {xs buf : List Nat} {off : Nat}
    (h : off + buf.length ≤ xs.length) :
    (setRange xs off buf).length = xs.length := by
  simp [setRange, List.length_take, List.length_drop]
  omega

theorem setRange_getElem?_lt {xs buf : List Nat} {off i : Nat}
    (hoff : off ≤ xs.length) (hi : i < off) :
    (setRange xs off buf)[i]? = xs[i]? := by
  unfold setRange
  rw [List.append_assoc,
    List.getElem?_append_left (by rw [List.length_take]; omega),
    List.getElem?_take_of_lt hi]

theorem setRange_getElem?_ge {xs buf : List Nat} {off i : Nat}
    (hoff : off ≤ xs.length) (hi : off + buf.length ≤ i) :
    (setRange xs off buf)[i]? = xs[i]? := by
  unfold setRange
  have htl : (List.take off xs).length = off := by rw [List.length_take]; omega
  rw [List.append_assoc, List.getElem?_append_right (by omega : (List.take off xs).length ≤ i),
    List.getElem?_append_right (by omega : buf.length ≤ i - (List.take off xs).length),
    List.getElem?_drop]
  congr 1
  omega

/-! ## Claim theorems: levels controller -/

/-- C2: `LevelsController::get` walks levels in increasing index order,
skips every level below `start_level`, skips tombstones (empty payload,
zero meta) and values whose version differs from `get_ts(key)`, returns
the first value whose version equals `get_ts(key)`, and falls back to
`max_value` when no level yields one. -/
theorem levels_controller_get_spec (key : List Nat) (maxValue : Value)
    (startLevel : Nat) (opts : List (Option Value)) :
    lcGet key maxValue startLevel (opts.map Except.ok) =
      .ok (lcGetSpec key maxValue startLevel opts) := by
  unfold lcGet lcGetSpec
  rw [lcGetAux_map_ok]
  simp

/-- C5: at level 0, `try_add_l0_table` refuses (and leaves the handler
unchanged) exactly when the stall bound is reached, and otherwise
appends the table, adds its size, and preserves the size invariant. -/
theorem try_add_l0_table_spec (h : LevelHandler) (t : Table)
    (_hlevel : h.level = 0)
    (hinv : h.total_size = (h.tables.map Table.size).sum) :
    (h.num_level_zero_tables_stall ≤ h.tables.length →
        try_add_l0_table h t = (false, h)) ∧
    (h.tables.length < h.num_level_zero_tables_stall →
        (try_add_l0_table h t).1 = true ∧
        (try_add_l0_table h t).2.tables = h.tables ++ [t] ∧
        (try_add_l0_table h t).2.total_size = h.total_size + t.size ∧
        (try_add_l0_table h t).2.total_size =
          ((try_add_l0_table h t).2.tables.map Table.size).sum) := by
  unfold try_add_l0_table
  constructor
  · intro hge; rw [if_pos hge]
  · intro hlt
    rw [if_neg (by omega)]
    refine ⟨rfl, rfl, rfl, ?_⟩
    simp [hinv]

theorem try_add_l0_table_spec_witness :
    (⟨0, 2, [⟨5⟩], 5⟩ : LevelHandler).level = 0 ∧
    (⟨0, 2, [⟨5⟩], 5⟩ : LevelHandler).total_size =
      ((⟨0, 2, [⟨5⟩], 5⟩ : LevelHandler).tables.map Table.size).sum ∧
    ((⟨0, 2, [⟨5⟩], 5⟩ : LevelHandler).tables.length < 2 →
      (try_add_l0_table ⟨0, 2, [⟨5⟩], 5⟩ ⟨7⟩).1 = true ∧
      (try_add_l0_table ⟨0, 2, [⟨5⟩], 5⟩ ⟨7⟩).2.tables = [⟨5⟩] ++ [⟨7⟩] ∧
      (try_add_l0_table ⟨0, 2, [⟨5⟩], 5⟩ ⟨7⟩).2.total_size = 5 + (7 : Nat) ∧
      (try_add_l0_table ⟨0, 2, [⟨5⟩], 5⟩ ⟨7⟩).2.total_size =
        ((try_add_l0_table ⟨0, 2, [⟨5⟩], 5⟩ ⟨7⟩).2.tables.map Table.size).sum) :=
  ⟨rfl, by decide, (try_add_l0_table_spec ⟨0, 2, [⟨5⟩], 5⟩ ⟨7⟩ rfl (by decide)).2⟩

/-! ## Claim theorems: WAL read / truncate / header / decode_entry -/

/-- C6 (amended): `Wal::read(p)` fails with `LogRead` exactly when
`p.offset ≥ mmap.len()`, or `p.offset + p.len` exceeds the mmap length
or the `size` field; otherwise it returns a copy of
`mmap[p.offset .. p.offset + p.len)`. -/
theorem wal_read_spec (w : Wal) (p : ValuePointer) :
    (walRead w p = .error () ↔
      w.mmap.length ≤ p.offset ∨ w.mmap.length < p.offset + p.len ∨
        w.size < p.offset + p.len) ∧
    (p.offset < w.mmap.length ∧ p.offset + p.len ≤ w.mmap.length ∧
        p.offset + p.len ≤ w.size →
      walRead w p = .ok ((w.mmap.drop p.offset).take p.len)) := by
  unfold walRead
  by_cases hc : w.mmap.length ≤ p.offset ∨ w.mmap.length < p.offset + p.len ∨
      w.size < p.offset + p.len
  · rw [if_pos hc]
    exact ⟨iff_of_true rfl hc, fun hg => absurd hc (by omega)⟩
  · rw [if_neg hc]
    exact ⟨iff_of_false (by simp) hc, fun _ => rfl⟩

theorem wal_read_spec_witness :
    ((0 : Nat) < ([7, 8, 9] : List Nat).length ∧ (0 : Nat) + 2 ≤ 3 ∧ (0 : Nat) + 2 ≤ 3) ∧
    walRead ⟨[7, 8, 9], 0, 3, 3⟩ ⟨0, 2⟩ = .ok [7, 8] :=
  ⟨by decide, (wal_read_spec ⟨[7, 8, 9], 0, 3, 3⟩ ⟨0, 2⟩).2 (by decide)⟩

/-- C6 counterexample: with a 4-byte mmap and `size = 4`, the pointer
`{offset := 4, len := 0}` makes `Wal::read` fail although
`offset + len` exceeds neither the mmap length nor `size` (the source's
first disjunct `offset >= mmap.len()` fires). -/
theorem wal_read_counterexample :
    walRead ⟨[7, 7, 7, 7], 0, 4, 4⟩ ⟨4, 0⟩ = .error () ∧
    ¬(([7, 7, 7, 7] : List Nat).length < 4 + 0 ∨ (4 : Nat) < 4 + 0) :=
  ⟨rfl, by decide⟩

/-- C7 (amended): `Wal::truncate(end)` is a no-op (early `Ok`) when the
file length already equals `end`; otherwise it sets
`size = end mod 2^64... ` precisely `end as u32 = end % 2^32` and
truncates the file to `end`. -/
theorem wal_truncate_spec (w : Wal) (e : Nat) :
    (w.file_len = e → walTruncate w e = w) ∧
    (w.file_len ≠ e →
      (walTruncate w e).size = e % 2 ^ 32 ∧ (walTruncate w e).file_len = e ∧
      (walTruncate w e).mmap = w.mmap ∧ (walTruncate w e).write_at = w.write_at) := by
  unfold walTruncate
  constructor
  · intro he; rw [if_pos he]
  · intro hne; rw [if_neg hne]; exact ⟨rfl, rfl, rfl, rfl⟩

theorem wal_truncate_spec_witness :
    ((⟨[], 0, 3, 5⟩ : Wal).file_len ≠ 9) ∧
    ((walTruncate ⟨[], 0, 3, 5⟩ 9).size = 9 % 2 ^ 32 ∧
      (walTruncate ⟨[], 0, 3, 5⟩ 9).file_len = 9 ∧
      (walTruncate ⟨[], 0, 3, 5⟩ 9).mmap = [] ∧
      (walTruncate ⟨[], 0, 3, 5⟩ 9).write_at = 0) :=
  ⟨by decide, (wal_truncate_spec ⟨[], 0, 3, 5⟩ 9).2 (by decide)⟩

/-- C7 counterexample: when the file length already equals `end`
(here 5) but `size` does not, `truncate` returns `Ok` without setting
`size = end`. -/
theorem wal_truncate_counterexample :
    (walTruncate ⟨[], 0, 3, 5⟩ 5).size ≠ 5 := by decide

/-- C8 (amended): `Header::decode` fails with `VarDecode` exactly when
the cursor holds at most 2 bytes (`remaining() <= 2`, i.e. shorter than
3 bytes, not shorter than 2); with more than 2 bytes it reads `meta`
and `user_meta` from the first two bytes and any further failure comes
only from the varint decoder (surfaced as `Decode`). -/
theorem header_decode_spec (bs : List Nat) :
    (headerDecode bs = .error .varDecode ↔ bs.length ≤ 2) ∧
    (2 < bs.length →
      (∀ er, headerDecode bs = .error er → er = .decodeErr) ∧
      (∀ h rest1, headerDecode bs = .ok (h, rest1) →
        h.meta = bs.getD 0 0 ∧ h.user_meta = bs.getD 1 0)) := by
  match bs with
  | [] =>
    refine ⟨by simp [headerDecode], ?_⟩
    intro h; exact absurd h (by simp)
  | [m] =>
    refine ⟨by simp [headerDecode], ?_⟩
    intro h; exact absurd h (by simp)
  | m :: u :: rest =>
    simp only [headerDecode]
    by_cases hr : rest.length = 0
    · rw [if_pos hr]
      refine ⟨iff_of_true rfl (by simp [hr]), ?_⟩
      intro hlen
      exfalso
      simp only [List.length_cons] at hlen
      omega
    · rw [if_neg hr]
      have hlen2 : ¬((m :: u :: rest).length ≤ 2) := by
        simp only [List.length_cons]
        omega
      cases h1 : decode_varint rest with
      | error e1 =>
        have he1 : e1 = .decodeErr :=
          decode_varint_aux_error (h1 : decode_varint_aux 10 rest = .error e1)
        subst he1
        refine ⟨iff_of_false (by simp) hlen2, ?_⟩
        intro _
        refine ⟨?_, ?_⟩
        · intro er her
          injection her with hh
          exact hh.symm
        · intro h rest1 hok
          exact absurd hok (by simp)
      | ok p1 =>
        obtain ⟨kl, r1⟩ := p1
        dsimp only
        cases h2 : decode_varint r1 with
        | error e2 =>
          have he2 : e2 = .decodeErr :=
            decode_varint_aux_error (h2 : decode_varint_aux 10 r1 = .error e2)
          subst he2
          refine ⟨iff_of_false (by simp) hlen2, ?_⟩
          intro _
          refine ⟨?_, ?_⟩
          · intro er her
            injection her with hh
            exact hh.symm
          · intro h rest1 hok
            exact absurd hok (by simp)
        | ok p2 =>
          obtain ⟨vl, r2⟩ := p2
          dsimp only
          cases h3 : decode_varint r2 with
          | error e3 =>
            have he3 : e3 = .decodeErr :=
              decode_varint_aux_error (h3 : decode_varint_aux 10 r2 = .error e3)
            subst he3
            refine ⟨iff_of_false (by simp) hlen2, ?_⟩
            intro _
            refine ⟨?_, ?_⟩
            · intro er her
              injection her with hh
              exact hh.symm
            · intro h rest1 hok
              exact absurd hok (by simp)
          | ok p3 =>
            obtain ⟨ea, r3⟩ := p3
            dsimp only
            refine ⟨iff_of_false (by simp) hlen2, ?_⟩
            intro _
            refine ⟨?_, ?_⟩
            · intro er her
              exact absurd her (by simp)
            · intro h rest1 hok
              simp only [Except.ok.injEq, Prod.mk.injEq] at hok
              rw [← hok.1]
              exact ⟨rfl, rfl⟩

theorem header_decode_spec_witness :
    (2 < ([1, 2, 0, 0, 0] : List Nat).length) ∧
    (({ key_len := 0, value_len := 0, expires_at := 0, meta := 1,
        user_meta := 2 } : WalHeader).meta = ([1, 2, 0, 0, 0] : List Nat).getD 0 0 ∧
     ({ key_len := 0, value_len := 0, expires_at := 0, meta := 1,
        user_meta := 2 } : WalHeader).user_meta = ([1, 2, 0, 0, 0] : List Nat).getD 1 0) :=
  ⟨by decide, ((header_decode_spec [1, 2, 0, 0, 0]).2 (by decide)).2 _ [] rfl⟩

/-- C8 counterexample: a cursor of exactly 2 bytes is not shorter than
the 2-byte minimum header, yet `Header::decode` rejects it with
`VarDecode` (the source checks `remaining() <= 2`). -/
theorem header_decode_counterexample :
    headerDecode [0, 0] = .error .varDecode ∧
    ¬(([0, 0] : List Nat).length < 2) :=
  ⟨rfl, by decide⟩

/-- C9: every entry `Wal::decode_entry` returns has `version = 0`: the
version is not part of the persisted WAL framing. -/
theorem decode_entry_version_zero (bs : List Nat) (e : Entry)
    (h : decode_entry bs = some e) : e.version = 0 := by
  unfold decode_entry at h
  split at h
  · exact absurd h (by simp)
  · split at h
    · simp only [Option.some.injEq] at h
      rw [← h]
    · exact absurd h (by simp)

theorem decode_entry_version_zero_witness :
    decode_entry [7, 9, 1, 1, 44, 5, 8] =
      some { meta := 7, user_meta := 9, expires_at := 44, key := [5],
             value := [8], version := 0 } ∧
    ({ meta := 7, user_meta := 9, expires_at := 44, key := [5], value := [8],
       version := 0 } : Entry).version = 0 :=
  ⟨by decide,
   decode_entry_version_zero [7, 9, 1, 1, 44, 5, 8] _ (by decide)⟩

/-! ## Claim theorems: write_entry bounds (C10) -/

/-- C10: `Wal::write_entry` performs no capacity check: its slice write
and the sentinel zeroing stay in bounds iff
`write_at + encoded_len + MAX_HEADER_SIZE ≤ mmap.len()`, and under that
precondition no byte outside `[write_at, write_at + encoded_len +
MAX_HEADER_SIZE)` is modified. -/
theorem write_entry_bounds (w : Wal) (e : Entry) :
    ((write_entry w e).isSome ↔
      w.write_at + (encode_entry e).length + MAX_HEADER_SIZE ≤ w.mmap.length) ∧
    (∀ w', write_entry w e = some w' →
      ∀ i, i < w.write_at ∨
          w.write_at + (encode_entry e).length + MAX_HEADER_SIZE ≤ i →
        w'.mmap[i]? = w.mmap[i]?) := by
  by_cases h1 : w.write_at + (encode_entry e).length ≤ w.mmap.length
  · have hws : write_slice w (encode_entry e) =
        some { w with mmap := setRange w.mmap w.write_at (encode_entry e) } := by
      unfold write_slice; rw [if_pos h1]
    have hlen : (setRange w.mmap w.write_at (encode_entry e)).length = w.mmap.length :=
      setRange_length h1
    have hwe : write_entry w e =
        zero_next_entry { mmap := setRange w.mmap w.write_at (encode_entry e),
                          write_at := w.write_at + (encode_entry e).length,
                          size := w.size, file_len := w.file_len } := by
      unfold write_entry; rw [hws]
    by_cases h2 : w.write_at + (encode_entry e).length + MAX_HEADER_SIZE ≤ w.mmap.length
    · have hz : write_entry w e =
          some { mmap := setRange (setRange w.mmap w.write_at (encode_entry e))
                           (w.write_at + (encode_entry e).length)
                           (List.replicate MAX_HEADER_SIZE 0),
                 write_at := w.write_at + (encode_entry e).length,
                 size := w.size, file_len := w.file_len } := by
        rw [hwe]; unfold zero_next_entry
        rw [if_pos (by simpa [hlen] using h2)]
      refine ⟨by simp [hz, h2], ?_⟩
      intro w' hw' i hi
      rw [hz] at hw'
      simp only [Option.some.injEq] at hw'
      rw [← hw']
      have hrep : (List.replicate MAX_HEADER_SIZE 0 : List Nat).length = MAX_HEADER_SIZE := by
        simp
      rcases hi with hi | hi
      · rw [setRange_getElem?_lt (by omega) (by omega),
          setRange_getElem?_lt (by omega) hi]
      · rw [setRange_getElem?_ge (by omega) (by rw [hrep]; omega),
          setRange_getElem?_ge (by omega) (by omega)]
    · have hz : write_entry w e = none := by
        rw [hwe]; unfold zero_next_entry
        rw [if_neg (by simpa [hlen] using h2)]
      rw [hz]
      exact ⟨by simp [h2], by intro w' hw'; exact absurd hw' (by simp)⟩
  · have hws : write_slice w (encode_entry e) = none := by
      unfold write_slice; rw [if_neg h1]
    have hz : write_entry w e = none := by
      unfold write_entry; rw [hws]
    rw [hz]
    refine ⟨by simp; omega, ?_⟩
    intro w' hw'
    exact absurd hw' (by simp)

/-! ## WAL round-trip lemmas -/

theorem decode_encode_varint_aux (fuel : Nat) :
    ∀ (v : Nat) (rest : List Nat), v < 128 ^ fuel → 1 ≤ fuel →
      decode_varint_aux fuel (encode_varint_aux fuel v ++ rest) = .ok (v, rest) := by
  induction fuel with
  | zero => intro v rest hv hf; omega
  | succ f ih =>
    intro v rest hv _
    have henc : encode_varint_aux (f + 1) v =
        if v < 128 then [v] else (v % 128 + 128) :: encode_varint_aux f (v / 128) := by
      rfl
    by_cases h128 : v < 128
    · rw [henc, if_pos h128, List.singleton_append]
      unfold decode_varint_aux
      rw [if_pos h128]
    · have hf1 : 1 ≤ f := by
        rcases Nat.eq_zero_or_pos f with hf0 | hf0
        · subst hf0; norm_num at hv; omega
        · exact hf0
      have hdiv : v / 128 < 128 ^ f := by
        rw [Nat.div_lt_iff_lt_mul (by norm_num)]
        calc v < 128 ^ (f + 1) := hv
          _ = 128 ^ f * 128 := by rw [pow_succ]
      rw [henc, if_neg h128, List.cons_append]
      unfold decode_varint_aux
      rw [if_neg (by omega)]
      rw [ih (v / 128) rest hdiv hf1]
      dsimp only
      have hval : (v % 128 + 128) % 128 + 128 * (v / 128) = v := by omega
      rw [hval]

theorem decode_varint_encode (v : Nat) (rest : List Nat) (hv : v < 2 ^ 64) :
    decode_varint (encode_varint v ++ rest) = .ok (v, rest) :=
  decode_encode_varint_aux 10 v rest (lt_of_lt_of_le hv (by norm_num)) (by omega)

theorem encode_varint_aux_ne_nil (fuel v : Nat) : encode_varint_aux fuel v ≠ [] := by
  cases fuel with
  | zero => simp [encode_varint_aux]
  | succ f => unfold encode_varint_aux; split <;> simp

theorem headerDecode_headerEncode (h : WalHeader) (rest : List Nat)
    (hk : h.key_len < 2 ^ 32) (hv : h.value_len < 2 ^ 32)
    (he : h.expires_at < 2 ^ 64) :
    headerDecode (headerEncode h ++ rest) = .ok (h, rest) := by
  have h1 : headerEncode h ++ rest =
      h.meta :: h.user_meta ::
        (encode_varint h.key_len ++
          (encode_varint h.value_len ++ (encode_varint h.expires_at ++ rest))) := by
    simp [headerEncode, List.append_assoc]
  rw [h1]
  simp only [headerDecode]
  rw [if_neg (by
    intro hc
    rw [List.length_eq_zero, List.append_eq_nil] at hc
    exact encode_varint_aux_ne_nil 10 h.key_len hc.1)]
  rw [decode_varint_encode _ _ (lt_trans hk (by norm_num))]
  dsimp only
  rw [decode_varint_encode _ _ (lt_trans hv (by norm_num))]
  dsimp only
  rw [decode_varint_encode _ _ he]
  dsimp only
  rw [Nat.mod_eq_of_lt hk, Nat.mod_eq_of_lt hv, Nat.mod_eq_of_lt he]

theorem readEntry_encode_entry (e : Entry) (rest : List Nat) (hwf : WfEntry e) :
    readEntry (encode_entry e ++ rest) = .ok (canon e, rest) := by
  obtain ⟨_, _, hk, hv, he⟩ := hwf
  have h1 : encode_entry e ++ rest =
      headerEncode (headerOf e) ++ (e.key ++ (e.value ++ rest)) := by
    simp [encode_entry, List.append_assoc]
  rw [h1]
  unfold readEntry
  rw [headerDecode_headerEncode (headerOf e) _
    (Nat.mod_lt _ (by norm_num)) (Nat.mod_lt _ (by norm_num)) he]
  dsimp only [headerOf]
  rw [Nat.mod_eq_of_lt hk, Nat.mod_eq_of_lt hv]
  unfold read_exact
  rw [if_pos (by simp)]
  rw [List.take_left, List.drop_left]
  dsimp only
  rw [if_pos (by simp)]
  rw [List.take_left, List.drop_left]
  dsimp only
  rfl

theorem encode_entry_length_pos (e : Entry) : 0 < (encode_entry e).length := by
  simp [encode_entry, headerEncode]

theorem decode_varint_zero_cons (bs : List Nat) : decode_varint (0 :: bs) = .ok (0, bs) := by
  simp [decode_varint, decode_varint_aux]

theorem walNext_replicate_zero (k : Nat) : walNext (List.replicate k 0) = none := by
  match k with
  | 0 => rfl
  | 1 => rfl
  | 2 => rfl
  | 3 => rfl
  | 4 => rfl
  | j + 5 =>
    have h5 : List.replicate (j + 5) 0 = 0 :: 0 :: (0 :: 0 :: 0 :: List.replicate j 0) := by
      simp [List.replicate_succ]
    rw [h5]
    have hre : readEntry (0 :: 0 :: (0 :: 0 :: 0 :: List.replicate j 0)) =
        .ok ({ meta := 0, user_meta := 0, expires_at := 0, key := [], value := [],
               version := 0 }, List.replicate j 0) := by
      unfold readEntry
      simp only [headerDecode]
      rw [if_neg (by simp)]
      rw [decode_varint_zero_cons]
      dsimp only
      rw [decode_varint_zero_cons]
      dsimp only
      rw [decode_varint_zero_cons]
      dsimp only
      unfold read_exact
      simp
    unfold walNext
    rw [hre]
    dsimp only
    rw [if_pos (show IsZeroEntry _ from ⟨rfl, rfl, rfl, rfl⟩)]

theorem walRunAux_replicate_zero (fuel k : Nat) :
    walRunAux fuel (List.replicate k 0) = ([], none) := by
  cases fuel with
  | zero => rfl
  | succ f =>
    unfold walRunAux
    rw [walNext_replicate_zero]

theorem concatEnc_nil : concatEnc [] = [] := rfl

theorem concatEnc_cons (e : Entry) (es : List Entry) :
    concatEnc (e :: es) = encode_entry e ++ concatEnc es := by
  simp [concatEnc]

theorem concatEnc_length (es : List Entry) :
    (concatEnc es).length = totalEncLen es := by
  simp only [concatEnc, totalEncLen, List.length_flatten, List.map_map]
  rfl

theorem walRunAux_entries (es : List Entry) (k : Nat) :
    ∀ fuel, (∀ e ∈ es, WfEntry e) → (∀ e ∈ es, ¬ IsZeroEntry e) →
      (concatEnc es ++ List.replicate k 0).length < fuel →
      walRunAux fuel (concatEnc es ++ List.replicate k 0) = (es.map canon, none) := by
  induction es with
  | nil =>
    intro fuel _ _ _
    rw [concatEnc_nil, List.nil_append, walRunAux_replicate_zero]
    simp
  | cons e es ih =>
    intro fuel hwf hnz hfuel
    have hlen : (concatEnc (e :: es) ++ List.replicate k 0).length =
        (encode_entry e).length + (concatEnc es ++ List.replicate k 0).length := by
      simp [concatEnc_cons]
    cases fuel with
    | zero => omega
    | succ f =>
      rw [concatEnc_cons, List.append_assoc]
      unfold walRunAux walNext
      rw [readEntry_encode_entry e _ (hwf e (by simp))]
      dsimp only
      rw [if_neg (show ¬ IsZeroEntry (canon e) from hnz e (by simp))]
      dsimp only
      rw [ih f (fun x hx => hwf x (by simp [hx])) (fun x hx => hnz x (by simp [hx]))
        (by
          have hp := encode_entry_length_pos e
          omega)]
      simp

theorem setRange_at_pad (pre buf : List Nat) (pad : Nat) :
    setRange (pre ++ List.replicate pad 0) pre.length buf =
      pre ++ buf ++ List.replicate (pad - buf.length) 0 := by
  unfold setRange
  rw [List.take_left, List.drop_append, List.drop_replicate]

theorem setRange_zero_pad (pre : List Nat) (pad n : Nat) (hn : n ≤ pad) :
    setRange (pre ++ List.replicate pad 0) pre.length (List.replicate n 0) =
      pre ++ List.replicate pad 0 := by
  rw [setRange_at_pad, List.length_replicate, List.append_assoc,
    ← List.replicate_add]
  have hp : n + (pad - n) = pad := by omega
  rw [hp]

theorem write_entries_cons (w : Wal) (e : Entry) (es : List Entry) :
    write_entries w (e :: es) =
      (write_entry w e).bind fun w1 => write_entries w1 es := by
  simp [write_entries]

theorem totalEncLen_cons (e : Entry) (es : List Entry) :
    totalEncLen (e :: es) = (encode_entry e).length + totalEncLen es := by
  simp [totalEncLen]

theorem write_entries_fresh (es : List Entry) :
    ∀ (pre : List Nat) (pad s fl : Nat),
      totalEncLen es + MAX_HEADER_SIZE ≤ pad →
      write_entries ⟨pre ++ List.replicate pad 0, pre.length, s, fl⟩ es =
        some ⟨(pre ++ concatEnc es) ++ List.replicate (pad - totalEncLen es) 0,
              pre.length + totalEncLen es, s, fl⟩ := by
  induction es with
  | nil =>
    intro pre pad s fl _
    simp [write_entries, concatEnc_nil, totalEncLen]
  | cons e es ih =>
    intro pre pad s fl hpad
    have hTL := totalEncLen_cons e es
    have hL : (encode_entry e).length + MAX_HEADER_SIZE ≤ pad := by
      rw [hTL] at hpad; omega
    have hws : write_slice ⟨pre ++ List.replicate pad 0, pre.length, s, fl⟩
        (encode_entry e) =
        some ⟨(pre ++ encode_entry e) ++
                List.replicate (pad - (encode_entry e).length) 0,
              pre.length, s, fl⟩ := by
      unfold write_slice
      rw [if_pos (by simp; omega)]
      rw [setRange_at_pad]
    have hze : zero_next_entry
        ⟨(pre ++ encode_entry e) ++
            List.replicate (pad - (encode_entry e).length) 0,
          pre.length + (encode_entry e).length, s, fl⟩ =
        some ⟨(pre ++ encode_entry e) ++
                List.replicate (pad - (encode_entry e).length) 0,
              pre.length + (encode_entry e).length, s, fl⟩ := by
      unfold zero_next_entry
      rw [if_pos (by simp; omega)]
      have hlp : pre.length + (encode_entry e).length = (pre ++ encode_entry e).length := by
        simp
      congr 1
      rw [hlp, setRange_zero_pad _ _ _ (by omega)]
    rw [write_entries_cons]
    have hwe : write_entry ⟨pre ++ List.replicate pad 0, pre.length, s, fl⟩ e =
        some ⟨(pre ++ encode_entry e) ++
                List.replicate (pad - (encode_entry e).length) 0,
              pre.length + (encode_entry e).length, s, fl⟩ := by
      unfold write_entry
      rw [hws]
      exact hze
    rw [hwe, Option.some_bind]
    have hih := ih (pre ++ encode_entry e) (pad - (encode_entry e).length) s fl
      (by rw [hTL] at hpad; omega)
    rw [List.length_append] at hih
    rw [hih]
    have hsub : pad - (encode_entry e).length - totalEncLen es =
        pad - totalEncLen (e :: es) := by
      rw [hTL]; omega
    rw [hsub, hTL, concatEnc_cons]
    simp [List.append_assoc, Nat.add_assoc]

/-! ## Claim theorems: WAL round trip (C1) and torn tail (C3) -/

/-- C1 (amended): for every sequence of machine-representable entries,
none of which is the zero sentinel (empty key and value, zero meta and
user_meta), written into a freshly created WAL large enough to hold
them plus the sentinel, a fresh iterator yields exactly the entries in
write order — equal on key, value, meta, user_meta and expires_at
(version reads back as 0) — and then terminates cleanly. -/
theorem wal_round_trip (es : List Entry) (n : Nat)
    (hwf : ∀ e ∈ es, WfEntry e) (hnz : ∀ e ∈ es, ¬ IsZeroEntry e)
    (hcap : totalEncLen es + MAX_HEADER_SIZE ≤ n) :
    ∃ w, write_entries (freshWal n) es = some w ∧
      walEntries w = (es.map canon, none) := by
  have hwrite := write_entries_fresh es [] n n n hcap
  simp only [List.nil_append, List.length_nil, Nat.zero_add] at hwrite
  have htot : totalEncLen es ≤ n := by omega
  have hmlen : (concatEnc es ++ List.replicate (n - totalEncLen es) 0).length = n := by
    simp [concatEnc_length]
    omega
  refine ⟨_, hwrite, ?_⟩
  unfold walEntries walRun
  dsimp only
  rw [List.take_of_length_le (le_of_eq hmlen), hmlen]
  exact walRunAux_entries es (n - totalEncLen es) (n + 1) hwf hnz (by omega)

theorem wal_round_trip_witness :
    (∀ e ∈ [({ meta := 1, user_meta := 2, expires_at := 3, key := [4],
               value := [5], version := 9 } : Entry)], WfEntry e) ∧
    (∀ e ∈ [({ meta := 1, user_meta := 2, expires_at := 3, key := [4],
               value := [5], version := 9 } : Entry)], ¬ IsZeroEntry e) ∧
    totalEncLen [({ meta := 1, user_meta := 2, expires_at := 3, key := [4],
                    value := [5], version := 9 } : Entry)] + MAX_HEADER_SIZE ≤ 64 ∧
    ∃ w, write_entries (freshWal 64)
          [({ meta := 1, user_meta := 2, expires_at := 3, key := [4],
              value := [5], version := 9 } : Entry)] = some w ∧
        walEntries w =
          ([({ meta := 1, user_meta := 2, expires_at := 3, key := [4],
               value := [5], version := 9 } : Entry)].map canon, none) :=
  ⟨by decide, by decide, by decide,
   wal_round_trip _ 64 (by decide) (by decide) (by decide)⟩

/-- C1 counterexample: writing the single all-zero entry succeeds, but
a fresh iterator yields 0 entries instead of 1 — the written entry is
indistinguishable from the zero sentinel, so the round trip fails for
sequences containing it. -/
theorem wal_round_trip_counterexample :
    (write_entries (freshWal 64)
        [({ meta := 0, user_meta := 0, expires_at := 0, key := [],
            value := [], version := 5 } : Entry)]).map
      (fun w => (walEntries w).1.length) = some 0 ∧ (0 : Nat) ≠ 1 :=
  ⟨rfl, by decide⟩

theorem write_entry_bounds_witness :
    (write_entry ⟨List.replicate 40 3, 1, 40, 40⟩
        ⟨1, 0, 0, [65], [66], 5⟩).isSome ∧
    ((write_entry ⟨List.replicate 40 3, 1, 40, 40⟩
        ⟨1, 0, 0, [65], [66], 5⟩).getD ⟨[], 0, 0, 0⟩).mmap[0]? =
      (List.replicate 40 3 : List Nat)[0]? := by
  have h := write_entry_bounds ⟨List.replicate 40 3, 1, 40, 40⟩
    ⟨1, 0, 0, [65], [66], 5⟩
  have hs : (write_entry ⟨List.replicate 40 3, 1, 40, 40⟩
      ⟨1, 0, 0, [65], [66], 5⟩).isSome := h.1.mpr (by decide)
  refine ⟨hs, ?_⟩
  obtain ⟨w', hw⟩ := Option.isSome_iff_exists.mp hs
  rw [hw]
  simpa using h.2 w' hw 0 (Or.inl (by decide))

/-! ## Torn-tail lemmas (C3) -/

theorem take_append_lt {a b : List Nat} {n : Nat} (h : n ≤ a.length) :
    (a ++ b).take n = a.take n := by
  rw [List.take_append_eq_append_take]
  have h0 : n - a.length = 0 := by omega
  rw [h0, List.take_zero, List.append_nil]

theorem take_append_ge {a b : List Nat} {n : Nat} (h : a.length ≤ n) :
    (a ++ b).take n = a ++ b.take (n - a.length) := by
  rw [List.take_append_eq_append_take, List.take_of_length_le h]

theorem encode_varint_aux_take_high (fuel : Nat) :
    ∀ (v : Nat), ∀ b ∈ (encode_varint_aux fuel v).take
      ((encode_varint_aux fuel v).length - 1), 128 ≤ b := by
  induction fuel with
  | zero => intro v b hb; simp [encode_varint_aux] at hb
  | succ f ih =>
    intro v b hb
    have henc : encode_varint_aux (f + 1) v =
        if v < 128 then [v] else (v % 128 + 128) :: encode_varint_aux f (v / 128) := rfl
    by_cases h128 : v < 128
    · rw [henc, if_pos h128] at hb
      simp at hb
    · rw [henc, if_neg h128] at hb
      have hne := encode_varint_aux_ne_nil f (v / 128)
      have hpos : 0 < (encode_varint_aux f (v / 128)).length := List.length_pos.mpr hne
      have hlen : ((v % 128 + 128) :: encode_varint_aux f (v / 128)).length - 1 =
          ((encode_varint_aux f (v / 128)).length - 1) + 1 := by
        simp only [List.length_cons]
        omega
      rw [hlen, List.take_succ_cons] at hb
      rcases List.mem_cons.mp hb with hb | hb
      · subst hb; omega
      · exact ih (v / 128) b hb

theorem decode_varint_aux_high (fuel : Nat) :
    ∀ (bs : List Nat), (∀ b ∈ bs, 128 ≤ b) →
      decode_varint_aux fuel bs = .error .decodeErr := by
  induction fuel with
  | zero => intro bs _; cases bs <;> rfl
  | succ f ih =>
    intro bs hb
    cases bs with
    | nil => rfl
    | cons b rest =>
      unfold decode_varint_aux
      rw [if_neg (by have := hb b (by simp); omega)]
      rw [ih rest (fun x hx => hb x (by simp [hx]))]

theorem decode_varint_trunc (v m : Nat) (hm : m < (encode_varint v).length) :
    decode_varint ((encode_varint v).take m) = .error .decodeErr := by
  apply decode_varint_aux_high
  intro b hb
  have hmm : m ≤ (encode_varint v).length - 1 := by omega
  have h1 : ((encode_varint v).take ((encode_varint v).length - 1)).take m =
      (encode_varint v).take m := by
    rw [List.take_take, Nat.min_eq_left hmm]
  rw [← h1] at hb
  exact encode_varint_aux_take_high 10 v b (List.take_subset _ _ hb)

theorem headerDecode_trunc (h : WalHeader) (tail : List Nat) (m : Nat)
    (hk : h.key_len < 2 ^ 32) (hv : h.value_len < 2 ^ 32)
    (_he : h.expires_at < 2 ^ 64) (hm : m < (headerEncode h).length) :
    headerDecode ((headerEncode h ++ tail).take m) = .error .varDecode ∨
    headerDecode ((headerEncode h ++ tail).take m) = .error .decodeErr := by
  have hsplit : headerEncode h ++ tail =
      h.meta :: h.user_meta ::
        (encode_varint h.key_len ++
          (encode_varint h.value_len ++ (encode_varint h.expires_at ++ tail))) := by
    simp [headerEncode, List.append_assoc]
  have hhlen : (headerEncode h).length =
      (encode_varint h.key_len).length + (encode_varint h.value_len).length +
        (encode_varint h.expires_at).length + 2 := by
    simp [headerEncode]
    omega
  match m with
  | 0 =>
    left
    rw [List.take_zero]
    rfl
  | 1 =>
    left
    rw [hsplit, List.take_succ_cons, List.take_zero]
    rfl
  | 2 =>
    left
    rw [hsplit, List.take_succ_cons, List.take_succ_cons, List.take_zero]
    rfl
  | mp + 3 =>
    have hm3 : mp + 1 < (encode_varint h.key_len).length +
        (encode_varint h.value_len).length + (encode_varint h.expires_at).length := by
      omega
    rw [hsplit, List.take_succ_cons, List.take_succ_cons]
    simp only [headerDecode]
    rw [if_neg (by
      rw [List.length_take]
      simp only [List.length_append]
      omega)]
    by_cases c1 : mp + 1 < (encode_varint h.key_len).length
    · right
      rw [take_append_lt (by omega)]
      rw [decode_varint_trunc h.key_len (mp + 1) c1]
    · by_cases c2 : mp + 1 < (encode_varint h.key_len).length +
          (encode_varint h.value_len).length
      · right
        rw [take_append_ge (by omega)]
        rw [decode_varint_encode _ _ (lt_trans hk (by norm_num))]
        dsimp only
        rw [take_append_lt (by omega)]
        rw [decode_varint_trunc h.value_len
          (mp + 1 - (encode_varint h.key_len).length) (by omega)]
      · right
        rw [take_append_ge (by omega)]
        rw [decode_varint_encode _ _ (lt_trans hk (by norm_num))]
        dsimp only
        rw [take_append_ge (by omega)]
        rw [decode_varint_encode _ _ (lt_trans hv (by norm_num))]
        dsimp only
        rw [take_append_lt (by omega)]
        rw [decode_varint_trunc h.expires_at
          (mp + 1 - (encode_varint h.key_len).length -
            (encode_varint h.value_len).length) (by omega)]

theorem readEntry_trunc (e : Entry) (m : Nat) (hwf : WfEntry e)
    (hm : m < (encode_entry e).length) :
    readEntry ((encode_entry e).take m) = .error .varDecode ∨
    readEntry ((encode_entry e).take m) = .error .decodeErr ∨
    readEntry ((encode_entry e).take m) = .error .ioEof := by
  obtain ⟨_, _, hk, hv, he⟩ := hwf
  have h1 : encode_entry e = headerEncode (headerOf e) ++ (e.key ++ e.value) := by
    simp [encode_entry, List.append_assoc]
  have helen : (encode_entry e).length =
      (headerEncode (headerOf e)).length + (e.key.length + e.value.length) := by
    rw [h1]; simp
  by_cases chd : m < (headerEncode (headerOf e)).length
  · rcases headerDecode_trunc (headerOf e) (e.key ++ e.value) m
      (Nat.mod_lt _ (by norm_num)) (Nat.mod_lt _ (by norm_num)) he chd with hc | hc
    · left
      rw [h1]
      unfold readEntry
      rw [hc]
    · right; left
      rw [h1]
      unfold readEntry
      rw [hc]
  · have hge : (headerEncode (headerOf e)).length ≤ m := by omega
    rw [h1, take_append_ge hge]
    unfold readEntry
    rw [headerDecode_headerEncode (headerOf e) _
      (Nat.mod_lt _ (by norm_num)) (Nat.mod_lt _ (by norm_num)) he]
    dsimp only
    have hkl : (headerOf e).key_len = e.key.length := by
      simp only [headerOf]
      exact Nat.mod_eq_of_lt hk
    have hvl : (headerOf e).value_len = e.value.length := by
      simp only [headerOf]
      exact Nat.mod_eq_of_lt hv
    rw [hkl, hvl]
    set mh := m - (headerEncode (headerOf e)).length with hmh
    have hmhlt : mh < e.key.length + e.value.length := by omega
    by_cases ck : mh < e.key.length
    · right; right
      unfold read_exact
      rw [if_neg (by
        rw [List.length_take]
        simp only [List.length_append]
        omega)]
    · right; right
      rw [take_append_ge (by omega)]
      unfold read_exact
      rw [if_pos (by simp)]
      rw [List.take_left, List.drop_left]
      dsimp only
      rw [if_neg (by
        rw [List.length_take]
        omega)]

theorem walNext_none_of_err (bs : List Nat) (er : WErr) (hne : er ≠ .ioOther)
    (h : readEntry bs = .error er) : walNext bs = none := by
  unfold walNext
  rw [h]
  cases er with
  | varDecode => rfl
  | decodeErr => rfl
  | ioEof => rfl
  | ioOther => exact absurd rfl hne

theorem walRunAux_trunc (es : List Entry) :
    ∀ (l fuel : Nat), (∀ e ∈ es, WfEntry e) → l ≤ (concatEnc es).length → l < fuel →
      ∃ k, k ≤ es.length ∧
        walRunAux fuel ((concatEnc es).take l) = ((es.take k).map canon, none) := by
  induction es with
  | nil =>
    intro l fuel _ hl _
    refine ⟨0, by omega, ?_⟩
    have h0 : (concatEnc ([] : List Entry)).take l = [] := by
      rw [concatEnc_nil, List.take_nil]
    rw [h0]
    cases fuel with
    | zero => rfl
    | succ f => rfl
  | cons e es ih =>
    intro l fuel hwf hl hfuel
    have hlen : (concatEnc (e :: es)).length =
        (encode_entry e).length + (concatEnc es).length := by
      rw [concatEnc_cons]; simp
    by_cases hsm : l < (encode_entry e).length
    · cases fuel with
      | zero => omega
      | succ f =>
        have htk : (concatEnc (e :: es)).take l = (encode_entry e).take l := by
          rw [concatEnc_cons]; exact take_append_lt (by omega)
        rw [htk]
        refine ⟨0, by omega, ?_⟩
        unfold walRunAux
        rcases readEntry_trunc e l (hwf e (by simp)) hsm with hc | hc | hc
        · rw [walNext_none_of_err _ _ (by simp) hc]
          simp
        · rw [walNext_none_of_err _ _ (by simp) hc]
          simp
        · rw [walNext_none_of_err _ _ (by simp) hc]
          simp
    · push_neg at hsm
      cases fuel with
      | zero => omega
      | succ f =>
        have htk : (concatEnc (e :: es)).take l =
            encode_entry e ++ (concatEnc es).take (l - (encode_entry e).length) := by
          rw [concatEnc_cons]; exact take_append_ge hsm
        rw [htk]
        unfold walRunAux walNext
        rw [readEntry_encode_entry e _ (hwf e (by simp))]
        dsimp only
        by_cases hz : IsZeroEntry (canon e)
        · rw [if_pos hz]
          exact ⟨0, by omega, by simp⟩
        · rw [if_neg hz]
          dsimp only
          obtain ⟨k, hk, hrun⟩ := ih (l - (encode_entry e).length) f
            (fun x hx => hwf x (by simp [hx]))
            (by omega)
            (by have := encode_entry_length_pos e; omega)
          rw [hrun]
          refine ⟨k + 1, by simp; omega, ?_⟩
          simp

/-- C3: truncating the encoded log of any well-formed entry sequence to
any length `l ≤ total encoded length` makes `WalIterator` yield exactly
some prefix of the written entries (`k ≤ n`), then terminate cleanly:
the zero sentinel, a varint decode failure, the header-too-short error
and an I/O unexpected-EOF all end iteration as `None`, and the pure
byte-cursor model produces no other I/O error, so no `Some(Err)`
appears. -/
theorem wal_torn_tail (es : List Entry) (l : Nat)
    (hwf : ∀ e ∈ es, WfEntry e) (hl : l ≤ totalEncLen es) :
    ∃ k, k ≤ es.length ∧
      walRun ((concatEnc es).take l) = ((es.take k).map canon, none) := by
  have hl2 : l ≤ (concatEnc es).length := by rw [concatEnc_length]; exact hl
  have hlen : ((concatEnc es).take l).length = l := by
    rw [List.length_take]; omega
  unfold walRun
  rw [hlen]
  exact walRunAux_trunc es l (l + 1) hwf hl2 (by omega)

theorem wal_torn_tail_witness :
    (∀ e ∈ [({ meta := 1, user_meta := 2, expires_at := 3, key := [4],
               value := [5], version := 9 } : Entry)], WfEntry e) ∧
    3 ≤ totalEncLen [({ meta := 1, user_meta := 2, expires_at := 3, key := [4],
                        value := [5], version := 9 } : Entry)] ∧
    ∃ k, k ≤ ([({ meta := 1, user_meta := 2, expires_at := 3, key := [4],
                  value := [5], version := 9 } : Entry)]).length ∧
      walRun ((concatEnc [({ meta := 1, user_meta := 2, expires_at := 3, key := [4],
                             value := [5], version := 9 } : Entry)]).take 3) =
        (([({ meta := 1, user_meta := 2, expires_at := 3, key := [4],
              value := [5], version := 9 } : Entry)].take k).map canon, none) :=
  ⟨by decide, by decide, wal_torn_tail _ 3 (by decide) (by decide)⟩

/-! ## Block iterator lemmas (C4) -/

theorem commonPrefixLen_le_left (a b : List Nat) : commonPrefixLen a b ≤ a.length := by
  induction a generalizing b with
  | nil => cases b <;> simp [commonPrefixLen]
  | cons x as ih =>
    cases b with
    | nil => simp [commonPrefixLen]
    | cons y bs =>
      unfold commonPrefixLen
      split
      · simp only [List.length_cons]
        have := ih bs
        omega
      · simp

theorem take_commonPrefixLen (a b : List Nat) :
    a.take (commonPrefixLen a b) = b.take (commonPrefixLen a b) := by
  induction a generalizing b with
  | nil => cases b <;> simp [commonPrefixLen]
  | cons x as ih =>
    cases b with
    | nil => simp [commonPrefixLen]
    | cons y bs =>
      unfold commonPrefixLen
      split
      · next hxy =>
        subst hxy
        simp only [List.take_succ_cons, List.cons.injEq, true_and]
        exact ih bs
      · simp

theorem getD_lt_eq {β : Type} (l : List β) (j : Nat) (d : β) (hj : j < l.length) :
    l.getD j d = l[j] := by
  rw [List.getD_eq_getElem?_getD, List.getElem?_eq_getElem hj]
  rfl

theorem blockEntries_length (kvs : List (List Nat × List Nat)) :
    (blockEntries kvs).length = kvs.length := by
  cases kvs <;> simp [blockEntries]

theorem offsetsAux_length (es : List (List Nat)) :
    ∀ acc, (offsetsAux es acc).length = es.length := by
  induction es with
  | nil => intro acc; rfl
  | cons a as ih => intro acc; simp [offsetsAux, ih]

theorem offsetsAux_getD (es : List (List Nat)) :
    ∀ (acc i : Nat), i < es.length →
      (offsetsAux es acc).getD i 0 = acc + ((es.take i).map List.length).sum := by
  induction es with
  | nil => intro acc i h; simp at h
  | cons a as ih =>
    intro acc i h
    cases i with
    | zero => simp [offsetsAux]
    | succ j =>
      simp only [offsetsAux, List.getD_cons_succ]
      rw [ih (acc + a.length) j (by simpa using h)]
      simp only [List.take_succ_cons, List.map_cons, List.sum_cons]
      omega

theorem flatten_slice (es : List (List Nat)) :
    ∀ i, i < es.length →
      ((es.flatten).take (((es.take (i + 1)).map List.length).sum)).drop
        (((es.take i).map List.length).sum) = es.getD i [] := by
  induction es with
  | nil => intro i h; simp at h
  | cons a as ih =>
    intro i h
    cases i with
    | zero =>
      simp only [List.take_succ_cons, List.take_zero, List.map_cons, List.map_nil,
        List.sum_cons, List.sum_nil, List.flatten_cons, List.drop_zero, List.getD_cons_zero]
      rw [Nat.add_zero, take_append_lt (le_refl a.length), List.take_length]
    | succ j =>
      simp only [List.take_succ_cons, List.map_cons, List.sum_cons, List.flatten_cons,
        List.getD_cons_succ]
      rw [take_append_ge (by omega), List.drop_append]
      have hsub : a.length + ((as.take (j + 1)).map List.length).sum - a.length =
          ((as.take (j + 1)).map List.length).sum := by omega
      rw [hsub]
      exact ih j (by simpa using h)

theorem blockEntries_getD (kvs : List (List Nat × List Nat)) (i : Nat)
    (hi : i < kvs.length) :
    (blockEntries kvs).getD i [] = entryBytes kvs i := by
  match kvs, i with
  | (k0, v0) :: rest, 0 =>
    simp [blockEntries, entryBytes, entryOv, entryDiff, entryKey, entryVal]
  | (k0, v0) :: rest, j + 1 =>
    have hj : j < rest.length := by simpa using hi
    simp only [blockEntries, List.getD_cons_succ]
    rw [getD_lt_eq _ _ _ (by simpa using hj), List.getElem_map]
    simp only [entryBytes, entryOv, entryDiff, entryKey, entryVal,
      List.getD_cons_succ, List.getD_cons_zero]
    rw [getD_lt_eq _ _ _ hj]
    simp [List.length_drop]

theorem bheaderDecode_u16 (a b : Nat) (rest : List Nat)
    (ha : a < 2 ^ 16) (hb : b < 2 ^ 16) :
    bheaderDecode (u16le a ++ u16le b ++ rest) = { overlap := a, diff := b } := by
  unfold bheaderDecode u16le
  simp only [List.cons_append, List.nil_append, List.getD_cons_zero, List.getD_cons_succ]
  have h1 : a % 256 + 256 * (a / 256 % 256) = a := by omega
  have h2 : b % 256 + 256 * (b / 256 % 256) = b := by omega
  rw [h1, h2]

theorem entryKey_zero (kv0 : List Nat × List Nat) (rest : List (List Nat × List Nat)) :
    entryKey (kv0 :: rest) 0 = kv0.1 := rfl

theorem entryOv_le_base (kvs : List (List Nat × List Nat)) (i : Nat) :
    entryOv kvs i ≤ (entryKey kvs 0).length := by
  unfold entryOv
  split
  · omega
  · exact commonPrefixLen_le_left _ _

theorem entryKey_decomp (kvs : List (List Nat × List Nat)) (i : Nat) :
    entryKey kvs i = (entryKey kvs 0).take (entryOv kvs i) ++ entryDiff kvs i := by
  by_cases h0 : i = 0
  · subst h0
    simp [entryOv, entryDiff]
  · have hov : entryOv kvs i = commonPrefixLen (entryKey kvs 0) (entryKey kvs i) := by
      simp [entryOv, h0]
    rw [entryDiff, hov, take_commonPrefixLen]
    exact (List.take_append_drop _ _).symm

theorem entryBytes_shape (kvs : List (List Nat × List Nat)) (i : Nat) :
    entryBytes kvs i = u16le (entryOv kvs i) ++ u16le (entryDiff kvs i).length ++
      (entryDiff kvs i ++ entryVal kvs i) := by
  simp [entryBytes, List.append_assoc]

theorem u16le_pair_length (a b : Nat) : (u16le a ++ u16le b).length = HEADER_SIZE := by
  simp [u16le, HEADER_SIZE]

theorem entryBytes_bheader (kvs : List (List Nat × List Nat)) (i : Nat)
    (hov : entryOv kvs i < 2 ^ 16) (hd : (entryDiff kvs i).length < 2 ^ 16) :
    bheaderDecode (entryBytes kvs i) =
      { overlap := entryOv kvs i, diff := (entryDiff kvs i).length } := by
  rw [entryBytes_shape]
  exact bheaderDecode_u16 _ _ _ hov hd

theorem entryBytes_body (kvs : List (List Nat × List Nat)) (i : Nat) :
    (entryBytes kvs i).drop HEADER_SIZE = entryDiff kvs i ++ entryVal kvs i := by
  rw [entryBytes_shape]
  exact List.drop_left' (u16le_pair_length _ _)

theorem data_shape (kv0 : List Nat × List Nat) (rest : List (List Nat × List Nat)) :
    (blockEntries (kv0 :: rest)).flatten =
      u16le 0 ++ u16le kv0.1.length ++
        (kv0.1 ++ (kv0.2 ++ (rest.map (fun kv =>
          let ov := commonPrefixLen kv0.1 kv.1
          u16le ov ++ u16le (kv.1.length - ov) ++ kv.1.drop ov ++ kv.2)).flatten)) := by
  simp [blockEntries, List.append_assoc]

theorem data_bheader (kv0 : List Nat × List Nat) (rest : List (List Nat × List Nat))
    (h16 : kv0.1.length < 2 ^ 16) :
    bheaderDecode ((blockEntries (kv0 :: rest)).flatten) =
      { overlap := 0, diff := kv0.1.length } := by
  rw [data_shape]
  exact bheaderDecode_u16 _ _ _ (by norm_num) h16

theorem data_basekey (kv0 : List Nat × List Nat) (rest : List (List Nat × List Nat))
    (h16 : kv0.1.length < 2 ^ 16) :
    (((blockEntries (kv0 :: rest)).flatten).drop HEADER_SIZE).take
      (bheaderDecode ((blockEntries (kv0 :: rest)).flatten)).diff = kv0.1 := by
  rw [data_bheader kv0 rest h16]
  dsimp only
  rw [data_shape, List.drop_left' (u16le_pair_length 0 kv0.1.length), List.take_left]

theorem set_idx_spec (kv0 : List Nat × List Nat) (rest : List (List Nat × List Nat))
    (hwf : ∀ kv ∈ kv0 :: rest, kv.1.length < 2 ^ 16)
    (it : BIter) (hinv : BIterInv (kv0 :: rest) it)
    (i : Nat) (hi : i < (kv0 :: rest).length) :
    (set_idx it i).err = none ∧
    (set_idx it i).key = entryKey (kv0 :: rest) i ∧
    (set_idx it i).val = entryVal (kv0 :: rest) i ∧
    (set_idx it i).idx = i ∧
    BIterInv (kv0 :: rest) (set_idx it i) := by
  obtain ⟨hdata, hoffs, hbase, hpk0, hpkey, htake⟩ := hinv
  have htake' : it.key.take it.perv_overlap = kv0.1.take it.perv_overlap := htake
  have h16_0 : kv0.1.length < 2 ^ 16 := hwf kv0 (by simp)
  have hmem : (kv0 :: rest).getD i ([], []) ∈ kv0 :: rest := by
    rw [getD_lt_eq _ _ _ hi]
    exact List.getElem_mem hi
  have h16_i : (entryKey (kv0 :: rest) i).length < 2 ^ 16 := hwf _ hmem
  have hov_le0 : entryOv (kv0 :: rest) i ≤ kv0.1.length := entryOv_le_base _ i
  have hov16 : entryOv (kv0 :: rest) i < 2 ^ 16 := by omega
  have hd16 : (entryDiff (kv0 :: rest) i).length < 2 ^ 16 := by
    have hdd : (entryDiff (kv0 :: rest) i).length ≤ (entryKey (kv0 :: rest) i).length := by
      simp [entryDiff]
    omega
  have hes_len : (blockEntries (kv0 :: rest)).length = (kv0 :: rest).length :=
    blockEntries_length _
  have hoffs_len : it.offsets.length = (kv0 :: rest).length := by
    rw [hoffs, offsetsAux_length, hes_len]
  have hrange : ¬ (it.offsets.length ≤ i) := by omega
  have hbase_eff : (if it.base_key = [] then
      ((it.data.drop HEADER_SIZE).take (bheaderDecode it.data).diff)
      else it.base_key) = kv0.1 := by
    by_cases hb : it.base_key = []
    · rw [if_pos hb, hdata]
      exact data_basekey kv0 rest h16_0
    · rw [if_neg hb]
      rcases hbase with h | h
      · exact absurd h hb
      · exact h
  have hstart : it.offsets.getD i 0 =
      (((blockEntries (kv0 :: rest)).take i).map List.length).sum := by
    rw [hoffs, offsetsAux_getD _ 0 i (by omega)]
    omega
  have hend : (if i + 1 = it.offsets.length then it.data.length
      else it.offsets.getD (i + 1) 0) =
      (((blockEntries (kv0 :: rest)).take (i + 1)).map List.length).sum := by
    by_cases hl : i + 1 = it.offsets.length
    · rw [if_pos hl, hdata, List.length_flatten]
      have ht : (blockEntries (kv0 :: rest)).take (i + 1) = blockEntries (kv0 :: rest) :=
        List.take_of_length_le (by omega)
      rw [ht]
    · rw [if_neg hl, hoffs, offsetsAux_getD _ 0 (i + 1) (by omega)]
      omega
  have hslice : (it.data.take
        ((((blockEntries (kv0 :: rest)).take (i + 1)).map List.length).sum)).drop
      ((((blockEntries (kv0 :: rest)).take i).map List.length).sum) =
      entryBytes (kv0 :: rest) i := by
    rw [hdata, flatten_slice _ i (by omega), blockEntries_getD _ i hi]
  have hkey1 : (if it.perv_overlap < entryOv (kv0 :: rest) i then
      it.key.take it.perv_overlap ++
        ((kv0.1.drop it.perv_overlap).take (entryOv (kv0 :: rest) i - it.perv_overlap))
      else it.key).take (entryOv (kv0 :: rest) i) =
      kv0.1.take (entryOv (kv0 :: rest) i) := by
    by_cases hov : it.perv_overlap < entryOv (kv0 :: rest) i
    · rw [if_pos hov]
      have hsum : it.perv_overlap + (entryOv (kv0 :: rest) i - it.perv_overlap) =
          entryOv (kv0 :: rest) i := by omega
      have h1 : it.key.take it.perv_overlap ++
          ((kv0.1.drop it.perv_overlap).take (entryOv (kv0 :: rest) i - it.perv_overlap)) =
          kv0.1.take (entryOv (kv0 :: rest) i) := by
        rw [htake']
        conv_rhs => rw [← hsum]
        rw [List.take_add]
      rw [h1, List.take_take, Nat.min_self]
    · rw [if_neg hov]
      push_neg at hov
      have h2 : it.key.take (entryOv (kv0 :: rest) i) =
          (it.key.take it.perv_overlap).take (entryOv (kv0 :: rest) i) := by
        rw [List.take_take, Nat.min_eq_left hov]
      rw [h2, htake', List.take_take, Nat.min_eq_left hov]
  unfold set_idx
  rw [if_neg hrange]
  dsimp only
  rw [hbase_eff, hend, hstart, hslice, entryBytes_bheader _ _ hov16 hd16]
  dsimp only
  rw [entryBytes_body, List.take_left, List.drop_left, hkey1]
  refine ⟨rfl, (entryKey_decomp _ i).symm, rfl, rfl, hdata, hoffs, Or.inr rfl, hov_le0,
    ?_, ?_⟩
  · simp only [List.length_append, List.length_take]
    omega
  · dsimp only [List.headD_cons]
    rw [take_append_lt (by simp only [List.length_take]; omega),
      List.take_take, Nat.min_self]

theorem set_idx_oor (it : BIter) (i : Nat) (h : it.offsets.length ≤ i) :
    (set_idx it i).err = some .eof := by
  unfold set_idx
  rw [if_pos h]

theorem collectFwd_err (fuel : Nat) (it : BIter) (h : it.err ≠ none) :
    collectFwd fuel it = [] := by
  cases fuel with
  | zero => rfl
  | succ f => unfold collectFwd; rw [if_neg h]

theorem collectBwd_err (fuel : Nat) (it : BIter) (h : it.err ≠ none) :
    collectBwd fuel it = [] := by
  cases fuel with
  | zero => rfl
  | succ f => unfold collectBwd; rw [if_neg h]

theorem collectFwd_spec (kv0 : List Nat × List Nat) (rest : List (List Nat × List Nat))
    (hwf : ∀ kv ∈ kv0 :: rest, kv.1.length < 2 ^ 16) :
    ∀ (d i : Nat) (it : BIter) (fuel : Nat),
      i + d = (kv0 :: rest).length → BIterInv (kv0 :: rest) it → d < fuel →
      collectFwd fuel (set_idx it i) = (kv0 :: rest).drop i := by
  intro d
  induction d with
  | zero =>
    intro i it fuel hid hinv _
    have hoor : it.offsets.length ≤ i := by
      obtain ⟨_, hoffs, _⟩ := hinv
      rw [hoffs, offsetsAux_length, blockEntries_length]
      omega
    rw [collectFwd_err fuel _ (by rw [set_idx_oor it i hoor]; simp)]
    rw [List.drop_of_length_le (by omega)]
  | succ dd ih =>
    intro i it fuel hid hinv hfuel
    have hi : i < (kv0 :: rest).length := by omega
    obtain ⟨herr, hkey, hval, hidx, hinv'⟩ := set_idx_spec kv0 rest hwf it hinv i hi
    cases fuel with
    | zero => omega
    | succ f =>
      unfold collectFwd
      rw [if_pos herr, hkey, hval]
      unfold iterNext
      rw [hidx]
      rw [ih (i + 1) _ f (by omega) hinv' (by omega)]
      rw [List.drop_eq_getElem_cons hi]
      congr 1
      simp only [entryKey, entryVal, getD_lt_eq _ _ _ hi]

theorem collectBwd_spec (kv0 : List Nat × List Nat) (rest : List (List Nat × List Nat))
    (hwf : ∀ kv ∈ kv0 :: rest, kv.1.length < 2 ^ 16) :
    ∀ (i : Nat) (it : BIter) (fuel : Nat),
      i < (kv0 :: rest).length → BIterInv (kv0 :: rest) it → i + 1 < fuel →
      collectBwd fuel (set_idx it i) = ((kv0 :: rest).take (i + 1)).reverse := by
  intro i
  induction i with
  | zero =>
    intro it fuel hi hinv hfuel
    obtain ⟨herr, hkey, hval, hidx, _⟩ := set_idx_spec kv0 rest hwf it hinv 0 hi
    cases fuel with
    | zero => omega
    | succ f =>
      unfold collectBwd
      rw [if_pos herr, hkey, hval]
      unfold iterPrev
      rw [if_pos hidx]
      rw [collectBwd_err f _ (by simp)]
      simp [entryKey, entryVal]
  | succ j ih =>
    intro it fuel hi hinv hfuel
    obtain ⟨herr, hkey, hval, hidx, hinv'⟩ := set_idx_spec kv0 rest hwf it hinv (j + 1) hi
    cases fuel with
    | zero => omega
    | succ f =>
      unfold collectBwd
      rw [if_pos herr, hkey, hval]
      unfold iterPrev
      rw [if_neg (by rw [hidx]; omega), hidx, Nat.add_sub_cancel]
      rw [ih _ f (by omega) hinv' (by omega)]
      conv_rhs => rw [List.take_succ]
      rw [List.getElem?_eq_getElem hi]
      simp only [Option.toList_some, List.reverse_append, List.reverse_cons,
        List.reverse_nil, List.nil_append, List.singleton_append]
      congr 1
      simp only [entryKey, entryVal, getD_lt_eq _ _ _ hi]

/-- C4: for any block built from a sorted sequence of internal keys
with prefix-compressed `(overlap, diff)` entries, `seek_to_first`
followed by repeated `next` yields exactly the input key/value sequence
in order, and `seek_to_last` followed by repeated `prev` yields exactly
the reverse sequence; in particular the full internal key at every
visited index is reconstructed from the base key and the
`(overlap, diff)` encoding. -/
theorem block_iterator_traversal (kvs : List (List Nat × List Nat))
    (hsorted : List.Pairwise (fun a b => compare_key a.1 b.1 = Ordering.lt) kvs)
    (hwf : ∀ kv ∈ kvs, kv.1.length < 2 ^ 16) :
    forwardList (buildBlock kvs) = kvs ∧
    backwardList (buildBlock kvs) = kvs.reverse := by
  cases kvs with
  | nil => exact ⟨rfl, rfl⟩
  | cons kv0 rest =>
    have hinv0 : BIterInv (kv0 :: rest) (newIter (buildBlock (kv0 :: rest))) := by
      refine ⟨?_, rfl, Or.inl rfl, by simp [newIter], by simp [newIter],
        by simp [newIter]⟩
      simp [newIter, buildBlock]
    have hn : (buildBlock (kv0 :: rest)).entry_offsets.length = (kv0 :: rest).length := by
      simp [buildBlock, offsetsAux_length, blockEntries_length]
    have hno : (newIter (buildBlock (kv0 :: rest))).offsets =
        (buildBlock (kv0 :: rest)).entry_offsets := rfl
    constructor
    · unfold forwardList seek_to_first
      rw [hn]
      rw [collectFwd_spec kv0 rest hwf ((kv0 :: rest).length) 0 _ _
        (by omega) hinv0 (by omega)]
      rfl
    · unfold backwardList seek_to_last
      rw [hno, hn]
      rw [if_neg (by simp)]
      rw [collectBwd_spec kv0 rest hwf ((kv0 :: rest).length - 1) _ _
        (by simp only [List.length_cons]; omega) hinv0
        (by simp only [List.length_cons]; omega)]
      have hone : (kv0 :: rest).length - 1 + 1 = (kv0 :: rest).length := by
        simp only [List.length_cons]
        omega
      rw [hone, List.take_length]

theorem block_iterator_traversal_witness :
    List.Pairwise (fun a b => compare_key a.1 b.1 = Ordering.lt)
      [([97, 97, 0, 0, 0, 0, 0, 0, 0, 1], [10]),
       ([97, 98, 0, 0, 0, 0, 0, 0, 0, 1], [11]),
       ([97, 98, 99, 0, 0, 0, 0, 0, 0, 0, 1], [12])] ∧
    (∀ kv ∈ [(([97, 97, 0, 0, 0, 0, 0, 0, 0, 1] : List Nat), ([10] : List Nat)),
             ([97, 98, 0, 0, 0, 0, 0, 0, 0, 1], [11]),
             ([97, 98, 99, 0, 0, 0, 0, 0, 0, 0, 1], [12])], kv.1.length < 2 ^ 16) ∧
    forwardList (buildBlock
      [([97, 97, 0, 0, 0, 0, 0, 0, 0, 1], [10]),
       ([97, 98, 0, 0, 0, 0, 0, 0, 0, 1], [11]),
       ([97, 98, 99, 0, 0, 0, 0, 0, 0, 0, 1], [12])]) =
      [([97, 97, 0, 0, 0, 0, 0, 0, 0, 1], [10]),
       ([97, 98, 0, 0, 0, 0, 0, 0, 0, 1], [11]),
       ([97, 98, 99, 0, 0, 0, 0, 0, 0, 0, 1], [12])] ∧
    backwardList (buildBlock
      [([97, 97, 0, 0, 0, 0, 0, 0, 0, 1], [10]),
       ([97, 98, 0, 0, 0, 0, 0, 0, 0, 1], [11]),
       ([97, 98, 99, 0, 0, 0, 0, 0, 0, 0, 1], [12])]) =
      [([97, 97, 0, 0, 0, 0, 0, 0, 0, 1], [10]),
       ([97, 98, 0, 0, 0, 0, 0, 0, 0, 1], [11]),
       ([97, 98, 99, 0, 0, 0, 0, 0, 0, 0, 1], [12])].reverse := by
  have h := block_iterator_traversal
    [([97, 97, 0, 0, 0, 0, 0, 0, 0, 1], [10]),
     ([97, 98, 0, 0, 0, 0, 0, 0, 0, 1], [11]),
     ([97, 98, 99, 0, 0, 0, 0, 0, 0, 0, 1], [12])] (by decide) (by decide)
  exact ⟨by decide, by decide, h.1, h.2⟩

end Agate
